import Mathlib

/-!
Verification of the fimg recipient-resolution, fuzzy-matching, picker and
roster-persistence logic, shallowly embedded from the Python sources
(engine/core.py, engine/edit_list.py, ui/tui.py).

Python strings are embedded as Lean `String`/`List Char`; Python ints as
`Int` (with `Int.fdiv` for Python floor division `//`); Python tuples as
products; Python `None`-returning functions as `Option`.  `str.lower` is
embedded through `Char.toLower` (exact on the ASCII data the program
handles), and the NFKD-to-ASCII fold of `_norm`
(`unicodedata.normalize("NFKD", s).encode("ascii", "ignore")`) is embedded
as retaining ASCII code points, which is the identity on ASCII input.
-/

/-- Python ASCII whitespace as recognised by `str.split` and `str.strip`. -/
def pySpace (c : Char) : Bool :=
  c = ' ' || c = '\t' || c = '\n' || c = '\r' || c = '\x0b' || c = '\x0c'

/-- Python `str.lower`, embedded character-wise via `Char.toLower`. -/
def pyLower (s : String) : String :=
  ⟨s.data.map Char.toLower⟩

/-- Splits a character list into the maximal runs of characters that do not
satisfy `sep`, dropping empty pieces; the accumulator holds the current run
reversed.  With `sep := pySpace` this is Python `str.split()`; with the
alias-separator class it is `re.split(r"[,\s;/]+", ...)` with falsy pieces
dropped, as used for the `alias` CSV column. -/
def splitRunGo (sep : Char → Bool) : List Char → List Char → List (List Char)
  | [], acc => if acc.isEmpty then [] else [acc.reverse]
  | c :: cs, acc =>
    if sep c then
      if acc.isEmpty then splitRunGo sep cs [] else acc.reverse :: splitRunGo sep cs []
    else
      splitRunGo sep cs (c :: acc)

/-- Python `str.split()` (split on whitespace runs, no empty pieces). -/
def pySplit (s : String) : List (List Char) :=
  splitRunGo pySpace s.data []

/-- The NFKD fold to ASCII of `_norm`, embedded as retaining ASCII code
points (`encode("ascii", "ignore")`); identity on ASCII input. -/
def asciiFold (s : String) : String :=
  ⟨s.data.filter fun c => c.toNat ≤ 127⟩

/-- `_norm` from engine/core.py (the identical helper also appears in
engine/edit_list.py): fold to ASCII, lowercase, turn `.` and `,` into
spaces, collapse whitespace runs into single spaces and strip the ends. -/
def _norm (s : String) : String :=
  let cs := (asciiFold s).data.map Char.toLower
  let cs := cs.map fun c => if c = '.' || c = ',' then ' ' else c
  ⟨List.intercalate [' '] (splitRunGo pySpace cs [])⟩

/-- Python substring test `t in s` on character lists. -/
def isSubstr : List Char → List Char → Bool
  | n, [] => n.isEmpty
  | n, l@(_ :: t) => n.isPrefixOf l || isSubstr n t

/-- Python `p.startswith(t) for p in name_l.split()`: does some
whitespace-delimited word of the normalized name start with the token. -/
def startsAnyWord (t : String) (nameL : String) : Bool :=
  (pySplit nameL).any fun p => t.data.isPrefixOf p

/-- Python `re.sub(r"[^\d+]", "", raw)`: keep digits and plus signs. -/
def cleanNumber (s : String) : String :=
  ⟨s.data.filter fun c => c.isDigit || c = '+'⟩

/-- Separator class of the alias splitter `re.split(r"[,\s;/]+", ...)`. -/
def isAliasSep (c : Char) : Bool :=
  c = ',' || c = ';' || c = '/' || pySpace c

/-- The alias-cell parser shared by engine/core.py and engine/edit_list.py:
`tuple(a.lower() for a in re.split(r"[,\s;/]+", alias_raw) if a.strip()) if
alias_raw else ()`. -/
def parseAliases (aliasRaw : String) : List String :=
  if aliasRaw = "" then []
  else (splitRunGo isAliasSep aliasRaw.data []).map fun w => pyLower ⟨w⟩

/-- Python `s[:-1]` (drop the final character). -/
def dropLastStr (s : String) : String :=
  ⟨s.data.dropLast⟩

/-- Python list indexing `l[i]`, including negative indices counted from the
end; `none` models the `IndexError` raised out of range. -/
def pyGet {α : Type} (l : List α) (i : Int) : Option α :=
  if 0 ≤ i then
    if i < (l.length : Int) then l.get? i.toNat else none
  else if 0 ≤ (l.length : Int) + i then
    l.get? ((l.length : Int) + i).toNat
  else none

/-- Python `hay.find(c, start)` returning the least absolute index at least
`start` holding `c`, as an `Option` instead of the `-1` sentinel. -/
def findFrom : List Char → Char → Nat → Option Nat
  | [], _, _ => none
  | x :: xs, c, 0 => if x = c then some 0 else (findFrom xs c 0).map (· + 1)
  | _ :: xs, c, n + 1 => (findFrom xs c n).map (· + 1)

namespace Engine

/-- The `Contact` dataclass of engine/core.py: `name_l` is the normalized
name and `first` the first normalized word, both derived by the loader. -/
structure Contact where
  name : String
  first : String
  number : String
  name_l : String
  aliases : List String
deriving DecidableEq, Repr

/-- `first_name` from engine/core.py: first word of the normalized name, or
the empty string when the normalized name is empty. -/
def first_name (full : String) : String :=
  match pySplit (_norm full) with
  | [] => ""
  | w :: _ => ⟨w⟩

/-- One row of `load_contacts` from engine/core.py, after the name and
number cells have been stripped and found non-empty. -/
def loadRow (name raw aliasRaw : String) : Contact :=
  { name := name
    first := first_name name
    number := cleanNumber raw
    name_l := _norm name
    aliases := parseAliases aliasRaw }

/-- `dedup` from engine/core.py: keep the first contact seen for each
number; the accumulator is the `seen` set of numbers. -/
def dedupGo : List Contact → List String → List Contact
  | [], _ => []
  | c :: rest, seen =>
    if c.number ∈ seen then dedupGo rest seen
    else c :: dedupGo rest (c.number :: seen)

/-- `dedup` from engine/core.py. -/
def dedup (people : List Contact) : List Contact :=
  dedupGo people []

/-- First-occurrence deduplication of a key list, mirroring `dedup` on the
projected numbers. -/
def dedupKeysGo : List String → List String → List String
  | [], _ => []
  | n :: rest, seen =>
    if n ∈ seen then dedupKeysGo rest seen
    else n :: dedupKeysGo rest (n :: seen)

/-- First-occurrence deduplication of a key list. -/
def dedupKeys (ns : List String) : List String :=
  dedupKeysGo ns []

/-- The per-token body of the `resolve_tokens` loop in engine/core.py:
exact alias match wins, otherwise substring-or-word-start hits, preferring
the first word-start hit over a pure substring hit. -/
def resolveOne (contacts : List Contact) (tok : String) : Option Contact :=
  let t := _norm tok
  match contacts.filter fun c => decide (t ∈ c.aliases) with
  | a :: _ => some a
  | [] =>
    match contacts.filter fun c =>
        isSubstr t.data c.name_l.data || startsAnyWord t c.name_l with
    | [] => none
    | h :: hs =>
      match (h :: hs).filter fun c => startsAnyWord t c.name_l with
      | s :: _ => some s
      | [] => some h

/-- The `resolve_tokens` loop of engine/core.py before the final `dedup`:
per token, append the chosen contact to the left list or the token itself
to the `missing` list, in input order. -/
def resolveRaw (tokens : List String) (contacts : List Contact) :
    List Contact × List String :=
  match tokens with
  | [] => ([], [])
  | tok :: rest =>
    let r := resolveRaw rest contacts
    match resolveOne contacts tok with
    | some c => (c :: r.1, r.2)
    | none => (r.1, tok :: r.2)

/-- `resolve_tokens` from engine/core.py. -/
def resolve_tokens (tokens : List String) (contacts : List Contact) :
    List Contact × List String :=
  if tokens.any fun t => pyLower t == "all" then (dedup contacts, [])
  else
    let r := resolveRaw tokens contacts
    (dedup r.1, r.2)

/-- The pre-deduplication selection sequence underlying `resolve_tokens`:
the whole contact list in the `"all"` branch, otherwise the per-token
chosen contacts in input order. -/
def selectionOf (tokens : List String) (contacts : List Contact) : List Contact :=
  if tokens.any fun t => pyLower t == "all" then contacts
  else (resolveRaw tokens contacts).1

/-- Row written for one contact by `write_contacts`: name, number, and the
aliases joined by commas. -/
def contactRow (c : Contact) : List String :=
  [c.name, c.number, String.intercalate "," c.aliases]

/-- Sort key comparison of `write_contacts`: `key=lambda c: c.name.lower()`
(Python `sorted` is a stable mergesort, embedded by `List.mergeSort`). -/
def nameLe (a b : Contact) : Bool :=
  decide (pyLower a.name ≤ pyLower b.name)

/-- The file-system effects of `write_contacts` observable at its boundary:
a write of the full CSV content to the temporary path followed by
`os.replace` onto the target (flush/fsync and the mkdir of the parent are
not modelled). -/
inductive FsOp where
  | write (path : String) (rows : List (List String))
  | rename (src dst : String)
deriving DecidableEq, Repr

/-- `write_contacts` from engine/core.py: header row, then the contacts
sorted by lowercased name, written to `path + ".tmp"` and renamed over the
target. -/
def write_contacts (path : String) (contacts : List Contact) : List FsOp :=
  let tmp := path ++ ".tmp"
  [FsOp.write tmp
      (["name", "number", "alias"] :: (contacts.mergeSort nameLe).map contactRow),
   FsOp.rename tmp path]

end Engine

namespace EditList

/-- The contact dictionary built by `load_contacts` in engine/edit_list.py,
with its derived lowercase fields (`name_l`, `first_l`, `last_l`, `inits`). -/
structure EContact where
  name : String
  number : String
  aliasRaw : String
  -- the `alias` dict key of the source; `alias` is reserved in Lean
  name_l : String
  first_l : String
  last_l : String
  inits : String
  aliases : List String
deriving DecidableEq, Repr

/-- `_initials` from engine/edit_list.py: the first letters of the words of
a normalized name, concatenated. -/
def _initials (nameNorm : String) : String :=
  ⟨(pySplit nameNorm).filterMap fun w => w.head?⟩

/-- One row of `load_contacts` from engine/edit_list.py, after the name and
number cells have been stripped and found non-empty. -/
def loadRow (name raw aliasRaw : String) : EContact :=
  let nameL := _norm name
  { name := name
    number := cleanNumber raw
    aliasRaw := aliasRaw
    name_l := nameL
    first_l := match pySplit nameL with | [] => "" | w :: _ => ⟨w⟩
    last_l := match (pySplit nameL).getLast? with | none => "" | some w => ⟨w⟩
    inits := _initials nameL
    aliases := parseAliases aliasRaw }

/-- `score_match` from engine/edit_list.py: the tiered match quality of a
token against a contact, with ties broken by the raw name length.  A
negative first component means no match. -/
def score_match (tok : String) (c : EContact) : Int × Nat :=
  let t := _norm tok
  if t = "" then (-1, 0)
  else if c.aliases.contains t then (100, c.name.length)
  else if t = c.name_l then (95, c.name.length)
  else if t = c.first_l ∨ t = c.last_l then (90, c.name.length)
  else if t.length ≤ 3 ∧ t = c.inits then (85, c.name.length)
  else if startsAnyWord t c.name_l then (70, c.name.length)
  else if isSubstr t.data c.name_l.data then (50, c.name.length)
  else (-1, 0)

/-- The inner loop of `resolve_tokens` in engine/edit_list.py: the best
score over all contacts under the lexicographic tuple order, together with
the first contact attaining it (`None` until a strictly better score is
seen, starting from `(-1, 0)`). -/
def bestOf (tok : String) (people : List EContact) :
    Option EContact × (Int × Nat) :=
  people.foldl
    (fun acc c =>
      let sc := score_match tok c
      if sc.1 > acc.2.1 ∨ (sc.1 = acc.2.1 ∧ sc.2 > acc.2.2) then (some c, sc)
      else acc)
    (none, (-1, 0))

/-- The token loop of `resolve_tokens` in engine/edit_list.py: unmatched
tokens go to `missing`; a matched token is dropped when its best contact
has an already-seen number, otherwise the contact is appended. -/
def resolveGo (people : List EContact) :
    List String → List String → List EContact × List String
  | [], _ => ([], [])
  | tok :: rest, seen =>
    let b := bestOf tok people
    if b.2.1 < 0 then
      let r := resolveGo people rest seen
      (r.1, tok :: r.2)
    else
      match b.1 with
      | some best =>
        if best.number ∈ seen then resolveGo people rest seen
        else
          let r := resolveGo people rest (best.number :: seen)
          (best :: r.1, r.2)
      | none => resolveGo people rest seen
      -- the `none` arm is unreachable: a non-negative best score is only
      -- produced together with a best contact

/-- `resolve_tokens` from engine/edit_list.py. -/
def resolve_tokens (tokens : List String) (people : List EContact) :
    List EContact × List String :=
  resolveGo people tokens []

end EditList

namespace Tui

/-- `fuzzy_score` inner loop from ui/tui.py: greedy leftmost subsequence
match over the lowercased strings; `last` is the index of the previous
match (initially `-1`), each matched character scores 3 when it directly
follows the previous match and 1 otherwise, plus 2 when it sits at index 0. -/
def fuzzyLoop : List Char → List Char → Int → Int → Option Int
  | [], _, _, score => some score
  | c :: rest, hay, last, score =>
    match findFrom hay c (last + 1).toNat with
    | none => none
    | some idx =>
      fuzzyLoop rest hay idx
        (score + (if (idx : Int) = last + 1 then 3 else 1) +
          (if idx = 0 then 2 else 0))

/-- `fuzzy_score` from ui/tui.py: empty needles score 0; otherwise the
greedy subsequence score plus a `4 + len(needle)` bonus when the needle is
a contiguous substring of the haystack. -/
def fuzzy_score (needle hay : String) : Option Int :=
  if needle = "" then some 0
  else
    let n := (pyLower needle).data
    let h := (pyLower hay).data
    match fuzzyLoop n h (-1) 0 with
    | none => none
    | some s => some (s + if isSubstr n h then 4 + (n.length : Int) else 0)

/-- The per-word summation loop of `fuzzy_match_score` in ui/tui.py. -/
def fuzzyParts : List String → String → Int → Option Int
  | [], _, total => some total
  | p :: ps, hay, total =>
    match fuzzy_score p hay with
    | none => none
    | some s => fuzzyParts ps hay (total + s)

/-- `fuzzy_match_score` from ui/tui.py: sum of `fuzzy_score` over the
whitespace words of the lowercased query; `None` when any word fails. -/
def fuzzy_match_score (query hay : String) : Option Int :=
  if query = "" then some 0
  else fuzzyParts ((pySplit (pyLower query)).map fun w => (⟨w⟩ : String)) hay 0

/-- The greedy leftmost match positions chosen by `fuzzy_score`, one
absolute haystack index per needle character, or `none` when some character
cannot be placed. -/
def matchIdxs : List Char → List Char → Int → Option (List Nat)
  | [], _, _ => some []
  | c :: rest, hay, last =>
    match findFrom hay c (last + 1).toNat with
    | none => none
    | some idx => (matchIdxs rest hay idx).map (idx :: ·)

/-- The per-character score of the `fuzzy_score` loop over a position list:
3 for a position directly following the previous one (1 otherwise), plus 2
at position 0. -/
def charSum : Int → List Nat → Int
  | _, [] => 0
  | last, p :: ps =>
    (if (p : Int) = last + 1 then 3 else 1) + (if p = 0 then 2 else 0) +
      charSum (p : Int) ps

/-- Two points for every matched character that directly continues the
previous matched character (the contiguous-run reward of the spec). -/
def contigBonus : List Nat → Int
  | p :: q :: qs => (if q = p + 1 then 2 else 0) + contigBonus (q :: qs)
  | _ => 0

/-- Two points when the match run starts at position 0 of the haystack. -/
def startBonus : List Nat → Int
  | 0 :: _ => 2
  | _ => 0

/-- Modelled from the spec: the documented per-character sum — 1 point per
matched character, +2 for a character directly continuing the previous
matched character, +2 when the run starts at position 0. -/
def specCharSum (ps : List Nat) : Int :=
  (ps.length : Int) + contigBonus ps + startBonus ps

/-- Modelled from the spec: the documented total score of the fuzzy matcher
over the greedy match positions, including the `4 + length(query)`
substring bonus.  The first matched character earns the contiguity reward
only when it actually continues a previous matched character, which is how
the spec sentence reads. -/
def claimedScore (query hay : String) : Option Int :=
  if query = "" then some 0
  else
    let n := (pyLower query).data
    let h := (pyLower hay).data
    (matchIdxs n h (-1)).map fun ps =>
      specCharSum ps + (if isSubstr n h then 4 + (n.length : Int) else 0)

/-- The documented total score amended with the convention the code
implements: a match whose first character sits at haystack position 0 also
collects the contiguity reward there (the loop starts from a virtual
previous match at index -1), i.e. +4 in total at position 0. -/
def amendedScore (query hay : String) : Option Int :=
  if query = "" then some 0
  else
    let n := (pyLower query).data
    let h := (pyLower hay).data
    (matchIdxs n h (-1)).map fun ps =>
      specCharSum ps + startBonus ps +
        (if isSubstr n h then 4 + (n.length : Int) else 0)

/-- curses KEY_UP. -/
def KEY_UP : Int := 259
/-- curses KEY_DOWN. -/
def KEY_DOWN : Int := 258
/-- curses KEY_BACKSPACE. -/
def KEY_BACKSPACE : Int := 263
/-- curses KEY_RESIZE. -/
def KEY_RESIZE : Int := 410

/-- `make_overlay` from ui/tui.py as a pure geometry computation: returns
`(top, left, height, width)` for the current terminal size, the height and
width clamped to `rows - 2` and `cols - 2` and the window centered
(`Int.fdiv` is Python floor division). -/
def make_overlay (height width rows cols : Int) : Int × Int × Int × Int :=
  let height := min height (rows - 2)
  let width := min width (cols - 2)
  let top := max 0 (Int.fdiv (rows - height) 2)
  let left := max 0 (Int.fdiv (cols - width) 2)
  (top, left, height, width)

/-- The index/offset clamping performed at the top of every iteration of
`contact_browser` and `list_picker` in ui/tui.py: pull the index back into
the filtered range, cap the offset, then scroll just enough to keep the
index visible among `maxRows` rows. -/
def clampView (len : Nat) (maxRows idx offset : Int) : Int × Int :=
  let idx := if idx ≥ (len : Int) then max 0 ((len : Int) - 1) else idx
  let maxOffset := max 0 ((len : Int) - maxRows)
  let offset := if offset > maxOffset then maxOffset else offset
  let offset := if idx < offset then idx else offset
  let offset := if idx ≥ offset + maxRows then idx - maxRows + 1 else offset
  (idx, offset)

/-- The loop state of `contact_browser` and `list_picker`: filter text,
highlighted index, scroll offset and the set of selected identity keys
(contact numbers for the browser, entry labels for the picker). -/
structure PickState where
  query : String
  idx : Int
  offset : Int
  selected : List String
deriving DecidableEq, Repr

/-- Outcome of one loop iteration of a picker: continue with a new state,
show a message overlay and continue, or return from the function. -/
inductive StepRes (σ ρ : Type) where
  | next (s : σ)
  | notice (title body : String) (s : σ)
  | done (result : ρ)
deriving DecidableEq, Repr

/-- The haystack `contact_browser` matches against: name, number and the
space-joined aliases, space-joined and lowercased. -/
def browserHay (c : Engine.Contact) : String :=
  pyLower (c.name ++ " " ++ c.number ++ " " ++ String.intercalate " " c.aliases)

/-- The filtered candidate list of `contact_browser`: all contacts for an
empty filter, otherwise the fuzzy matches sorted by descending score with
the lowercased name as tiebreak (a stable sort, like Python `list.sort`). -/
def browserFiltered (query : String) (cs : List Engine.Contact) :
    List Engine.Contact :=
  if query = "" then cs
  else
    let ranked := cs.filterMap fun c =>
      match fuzzy_match_score query (browserHay c) with
      | none => none
      | some score => some (score, c)
    (ranked.mergeSort fun a b =>
        decide (b.1 < a.1) ||
          (decide (a.1 = b.1) && decide (pyLower a.2.name ≤ pyLower b.2.name))).map
      Prod.snd

/-- The filtered entry list of `list_picker`: entries in their given order
for an empty filter, otherwise the fuzzy matches on the labels sorted by
descending score with the lowercased label as tiebreak. -/
def pickerFiltered (query : String) (entries : List (String × String)) :
    List (String × String) :=
  if query = "" then entries
  else
    let ranked := entries.filterMap fun e =>
      match fuzzy_match_score query e.1 with
      | none => none
      | some score => some (score, e)
    (ranked.mergeSort fun a b =>
        decide (b.1 < a.1) ||
          (decide (a.1 = b.1) && decide (pyLower a.2.1 ≤ pyLower b.2.1))).map
      Prod.snd

/-- One loop iteration of `contact_browser` from ui/tui.py for a key `ch`:
recompute the filtered list, clamp index and offset, then dispatch on the
key exactly as the if-chain of the source does.  `sortedContacts` is the
name-sorted list computed once before the loop.  The unreachable `pyGet`
failure arms correspond to an `IndexError` the source could only raise
from states the loop never produces. -/
def browserStep (selectable : Bool) (sortedContacts : List Engine.Contact)
    (rows _cols : Int) (s : PickState) (ch : Int) :
    StepRes PickState (Option (List Engine.Contact)) :=
  let filtered := browserFiltered s.query sortedContacts
  let maxRows := min 20 (rows - 4) - 4
  let v := clampView filtered.length maxRows s.idx s.offset
  let s := { s with idx := v.1, offset := v.2 }
  if ch = KEY_RESIZE then .next s
  else if ch = KEY_UP ∨ ch = 107 then .next { s with idx := max 0 (s.idx - 1) }
  else if ch = KEY_DOWN ∨ ch = 106 then
    .next { s with idx := min (max 0 ((filtered.length : Int) - 1)) (s.idx + 1) }
  else if ch = 10 ∨ ch = 13 then
    if selectable = false then .done none
    else if s.selected = [] then
      .notice "No selection" "Select at least one contact to remove." s
    else .done (some (sortedContacts.filter fun c => decide (c.number ∈ s.selected)))
  else if ch = 27 then .done none
  else if ch = KEY_BACKSPACE ∨ ch = 127 ∨ ch = 8 then
    .next { s with query := dropLastStr s.query, idx := 0, offset := 0 }
  else if ch = 32 ∧ selectable = true ∧ filtered ≠ [] then
    match pyGet filtered s.idx with
    | some c =>
      if c.number ∈ s.selected then
        .next { s with selected := s.selected.filter fun n => n ≠ c.number }
      else .next { s with selected := c.number :: s.selected }
    | none => .next s
  else if 32 ≤ ch ∧ ch < 127 ∧ ch ≠ 32 then
    .next { s with query := s.query.push (Char.ofNat ch.toNat), idx := 0, offset := 0 }
  else .next s

/-- One loop iteration of `list_picker` from ui/tui.py for a key `ch`,
with entry paths embedded as strings.  On Enter with a non-empty filtered
list: in multi mode an empty selection returns the single highlighted
entry and a non-empty selection returns the selected entries in original
order; in single mode the highlighted entry is returned. -/
def pickerStep (multi : Bool) (entries : List (String × String))
    (rows _cols : Int) (s : PickState) (ch : Int) :
    StepRes PickState (Option (List (String × String) ⊕ (String × String))) :=
  let filtered := pickerFiltered s.query entries
  let maxRows := min 12 (rows - 4) - 4
  let v := clampView filtered.length maxRows s.idx s.offset
  let s := { s with idx := v.1, offset := v.2 }
  if ch = KEY_RESIZE then .next s
  else if ch = KEY_UP ∨ ch = 107 then .next { s with idx := max 0 (s.idx - 1) }
  else if ch = KEY_DOWN ∨ ch = 106 then
    .next { s with idx := min (max 0 ((filtered.length : Int) - 1)) (s.idx + 1) }
  else if ch = 10 ∨ ch = 13 then
    if filtered = [] then .next s
    else if multi then
      if s.selected = [] then
        match pyGet filtered s.idx with
        | some e => .done (some (Sum.inl [e]))
        | none => .next s
      else .done (some (Sum.inl (entries.filter fun e => decide (e.1 ∈ s.selected))))
    else
      match pyGet filtered s.idx with
      | some e => .done (some (Sum.inr e))
      | none => .next s
  else if ch = 27 then .done none
  else if ch = KEY_BACKSPACE ∨ ch = 127 ∨ ch = 8 then
    .next { s with query := dropLastStr s.query, idx := 0, offset := 0 }
  else if ch = 32 ∧ multi = true ∧ filtered ≠ [] then
    match pyGet filtered s.idx with
    | some e =>
      if e.1 ∈ s.selected then
        .next { s with selected := s.selected.filter fun n => n ≠ e.1 }
      else .next { s with selected := e.1 :: s.selected }
    | none => .next s
  else if 32 ≤ ch ∧ ch < 127 ∧ ch ≠ 32 then
    .next { s with query := s.query.push (Char.ofNat ch.toNat), idx := 0, offset := 0 }
  else .next s

/-- The clamped view `contact_browser` displays for a state at a given
terminal height (height `min 20 (rows-4)`, of which 4 rows are chrome). -/
def browserViewOf (cs : List Engine.Contact) (rows : Int) (s : PickState) :
    Int × Int :=
  clampView (browserFiltered s.query cs).length (min 20 (rows - 4) - 4) s.idx s.offset

/-- The clamped view `list_picker` displays for a state at a given terminal
height (height `min 12 (rows-4)`, of which 4 rows are chrome). -/
def pickerViewOf (entries : List (String × String)) (rows : Int) (s : PickState) :
    Int × Int :=
  clampView (pickerFiltered s.query entries).length (min 12 (rows - 4) - 4) s.idx s.offset

/-- The positions of a list strictly increase, starting strictly above
`last`; the greedy match positions of `fuzzy_score` have this shape. -/
def incFrom (last : Int) : List Nat → Prop
  | [] => True
  | p :: ps => last < (p : Int) ∧ incFrom (p : Int) ps

end Tui

/-! Helper lemmas. -/

theorem findFrom_ge (hay : List Char) (c : Char) :
    ∀ (s i : Nat), findFrom hay c s = some i → s ≤ i := by
  induction hay with
  | nil => intro s i h; simp [findFrom] at h
  | cons x xs ih =>
    intro s i h
    cases s with
    | zero => exact Nat.zero_le _
    | succ n =>
      simp only [findFrom, Option.map_eq_some'] at h
      obtain ⟨j, hj, rfl⟩ := h
      exact Nat.succ_le_succ (ih n j hj)

theorem fuzzyLoop_eq_matchIdxs (needle : List Char) :
    ∀ (hay : List Char) (last score : Int),
      Tui.fuzzyLoop needle hay last score =
        (Tui.matchIdxs needle hay last).map fun ps => score + Tui.charSum last ps := by
  induction needle with
  | nil => intro hay last score; simp [Tui.fuzzyLoop, Tui.matchIdxs, Tui.charSum]
  | cons c rest ih =>
    intro hay last score
    simp only [Tui.fuzzyLoop, Tui.matchIdxs]
    cases hf : findFrom hay c (last + 1).toNat with
    | none => rfl
    | some idx =>
      dsimp only
      rw [ih]
      cases hm : Tui.matchIdxs rest hay idx with
      | none => rfl
      | some ps =>
        simp only [Option.map_some', Option.some.injEq, Tui.charSum]
        ring

theorem matchIdxs_incFrom (needle : List Char) :
    ∀ (hay : List Char) (last : Int) (ps : List Nat),
      -1 ≤ last → Tui.matchIdxs needle hay last = some ps → Tui.incFrom last ps := by
  induction needle with
  | nil =>
    intro hay last ps _ h
    simp only [Tui.matchIdxs, Option.some.injEq] at h
    subst h
    trivial
  | cons c rest ih =>
    intro hay last ps hlast h
    simp only [Tui.matchIdxs] at h
    cases hf : findFrom hay c (last + 1).toNat with
    | none => rw [hf] at h; simp at h
    | some idx =>
      rw [hf] at h
      simp only [Option.map_eq_some'] at h
      obtain ⟨ps0, hm, rfl⟩ := h
      have h1 : (last + 1).toNat ≤ idx := findFrom_ge hay c _ _ hf
      refine ⟨by omega, ih hay idx ps0 (by omega) hm⟩

theorem charSum_of_incFrom (ps : List Nat) :
    ∀ p : Nat, Tui.incFrom (p : Int) ps →
      Tui.charSum (p : Int) ps = ps.length + Tui.contigBonus (p :: ps) := by
  induction ps with
  | nil => intro p _; simp [Tui.charSum, Tui.contigBonus]
  | cons q qs ih =>
    intro p h
    obtain ⟨hpq, hrest⟩ := h
    have hq0 : q ≠ 0 := by omega
    have hiff : ((q : Int) = (p : Int) + 1) = (q = p + 1) := by
      apply propext
      constructor <;> intro hh <;> omega
    simp only [Tui.charSum, Tui.contigBonus, hiff, if_neg hq0]
    rw [ih q hrest]
    by_cases hqp : q = p + 1
    · rw [if_pos hqp, if_pos hqp, List.length_cons]
      push_cast
      ring
    · rw [if_neg hqp, if_neg hqp, List.length_cons]
      push_cast
      ring

theorem charSum_neg_one (ps : List Nat) (h : Tui.incFrom (-1) ps) :
    Tui.charSum (-1) ps = Tui.specCharSum ps + Tui.startBonus ps := by
  cases ps with
  | nil => simp [Tui.charSum, Tui.specCharSum, Tui.contigBonus, Tui.startBonus]
  | cons p ps0 =>
    obtain ⟨-, hrest⟩ := h
    simp only [Tui.charSum, Tui.specCharSum]
    rw [charSum_of_incFrom ps0 p hrest]
    cases p with
    | zero =>
      simp only [Tui.startBonus, Nat.cast_zero, List.length_cons]
      norm_num
      generalize Tui.contigBonus (0 :: ps0) = C
      ring
    | succ n =>
      have hb : Tui.startBonus ((n + 1) :: ps0) = 0 := rfl
      have hc1 : ¬ ((n + 1 : Nat) : Int) = -1 + 1 := by omega
      have hc2 : ¬ (n + 1 = 0) := by omega
      rw [hb, if_neg hc1, if_neg hc2, List.length_cons]
      generalize Tui.contigBonus ((n + 1) :: ps0) = C
      push_cast
      ring

theorem clampView_bounds (len : Nat) (maxRows idx offset : Int)
    (h : 1 ≤ maxRows) :
    (Tui.clampView len maxRows idx offset).2 ≤ (Tui.clampView len maxRows idx offset).1 ∧
      (Tui.clampView len maxRows idx offset).1 <
        (Tui.clampView len maxRows idx offset).2 + maxRows := by
  simp only [Tui.clampView]
  split_ifs <;> simp_all <;> omega

theorem pySpace_toLower_self (c : Char) (h : pySpace c = true) :
    Char.toLower c = c := by
  simp only [pySpace, Bool.or_eq_true, decide_eq_true_eq] at h
  rcases h with ((((h | h) | h) | h) | h) | h <;> subst h <;> decide

theorem splitRun_all_space (cs : List Char) (h : ∀ c ∈ cs, pySpace c = true) :
    splitRunGo pySpace cs [] = [] := by
  induction cs with
  | nil => simp [splitRunGo]
  | cons c cs ih =>
    have hc : pySpace c = true := h c (by simp)
    simp only [splitRunGo, hc, if_true, List.isEmpty_nil]
    exact ih fun x hx => h x (by simp [hx])

theorem map_toLower_all_space (cs : List Char) (h : ∀ c ∈ cs, pySpace c = true) :
    cs.map Char.toLower = cs := by
  induction cs with
  | nil => rfl
  | cons c cs ih =>
    simp only [List.map_cons]
    rw [pySpace_toLower_self c (h c (by simp)), ih fun x hx => h x (by simp [hx])]

/-! Theorems for the claims. -/

/-- C4: whenever some token lowercases to the literal "all",
`resolve_tokens` returns the whole contact list deduplicated by number
together with an empty missing list; no other token is resolved or
reported missing. -/
theorem resolve_all_token (tokens : List String) (contacts : List Engine.Contact)
    (h : (tokens.any fun t => pyLower t == "all") = true) :
    Engine.resolve_tokens tokens contacts = (Engine.dedup contacts, []) := by
  simp [Engine.resolve_tokens, h]

/-- Witness for C4 at a concrete token list containing "ALL" plus another
token that would otherwise be missing. -/
theorem resolve_all_token_witness :
    Engine.resolve_tokens ["zed", "ALL"] [Engine.loadRow "Ann B" "+1 555" ""] =
      (Engine.dedup [Engine.loadRow "Ann B" "+1 555" ""], []) :=
  resolve_all_token _ _ (by decide)

/-- C7: after any navigation transition of either picker state machine,
whenever at least one candidate row is visible, the clamped view satisfies
`scrollOffset ≤ selectionIndex < scrollOffset + visibleRows`; stated for
every reachable and unreachable state alike. -/
theorem picker_scroll_invariant (cs : List Engine.Contact)
    (entries : List (String × String)) (rows : Int) (s : Tui.PickState) :
    (1 ≤ min 20 (rows - 4) - 4 →
      (Tui.browserViewOf cs rows s).2 ≤ (Tui.browserViewOf cs rows s).1 ∧
        (Tui.browserViewOf cs rows s).1 <
          (Tui.browserViewOf cs rows s).2 + (min 20 (rows - 4) - 4)) ∧
    (1 ≤ min 12 (rows - 4) - 4 →
      (Tui.pickerViewOf entries rows s).2 ≤ (Tui.pickerViewOf entries rows s).1 ∧
        (Tui.pickerViewOf entries rows s).1 <
          (Tui.pickerViewOf entries rows s).2 + (min 12 (rows - 4) - 4)) :=
  ⟨fun h => clampView_bounds _ _ _ _ h, fun h => clampView_bounds _ _ _ _ h⟩

/-- Witness for C7 on a 24-row terminal with an out-of-range state. -/
theorem picker_scroll_invariant_witness :
    ((Tui.browserViewOf [] 24 ⟨"", 5, 9, []⟩).2 ≤ (Tui.browserViewOf [] 24 ⟨"", 5, 9, []⟩).1 ∧
      (Tui.browserViewOf [] 24 ⟨"", 5, 9, []⟩).1 <
        (Tui.browserViewOf [] 24 ⟨"", 5, 9, []⟩).2 + (min 20 (24 - 4) - 4)) ∧
    ((Tui.pickerViewOf [("all", "all.csv")] 24 ⟨"", 5, 9, []⟩).2 ≤
        (Tui.pickerViewOf [("all", "all.csv")] 24 ⟨"", 5, 9, []⟩).1 ∧
      (Tui.pickerViewOf [("all", "all.csv")] 24 ⟨"", 5, 9, []⟩).1 <
        (Tui.pickerViewOf [("all", "all.csv")] 24 ⟨"", 5, 9, []⟩).2 + (min 12 (24 - 4) - 4)) :=
  ⟨(picker_scroll_invariant [] [("all", "all.csv")] 24 ⟨"", 5, 9, []⟩).1 (by decide),
   (picker_scroll_invariant [] [("all", "all.csv")] 24 ⟨"", 5, 9, []⟩).2 (by decide)⟩

/-- C8: the overlay window is always clamped to at most `rows - 2` by
`cols - 2`; its geometry is a pure function of the current terminal size,
recomputed by every loop iteration rather than cached. -/
theorem overlay_clamped (height width rows cols : Int) :
    (Tui.make_overlay height width rows cols).2.2.1 ≤ rows - 2 ∧
      (Tui.make_overlay height width rows cols).2.2.2 ≤ cols - 2 := by
  simp only [Tui.make_overlay]
  exact ⟨min_le_right _ _, min_le_right _ _⟩

/-- C10: a non-empty query consisting only of whitespace splits into zero
words, so `fuzzy_match_score` returns 0 against every haystack, exactly
like the empty query. -/
theorem whitespace_query_scores_zero (query hay : String) (hq : query ≠ "")
    (hw : ∀ c ∈ query.data, pySpace c = true) :
    Tui.fuzzy_match_score query hay = some 0 := by
  have hdata : (pyLower query).data = query.data := by
    show query.data.map Char.toLower = query.data
    exact map_toLower_all_space _ hw
  have hsplit : pySplit (pyLower query) = [] := by
    unfold pySplit
    rw [hdata]
    exact splitRun_all_space _ hw
  unfold Tui.fuzzy_match_score
  rw [if_neg hq, hsplit]
  rfl

/-- Witness for C10 at the two-character whitespace query " \t". -/
theorem whitespace_query_scores_zero_witness :
    Tui.fuzzy_match_score " \t" "Ann B" = some 0 :=
  whitespace_query_scores_zero " \t" "Ann B" (by decide) (by decide)


theorem splitRun_no_space (cs : List Char) :
    ∀ acc : List Char, (∀ c ∈ cs, pySpace c = false) → (acc ≠ [] ∨ cs ≠ []) →
      splitRunGo pySpace cs acc = [acc.reverse ++ cs] := by
  induction cs with
  | nil =>
    intro acc _ hne
    have hacc : acc ≠ [] := by
      rcases hne with h | h
      · exact h
      · exact absurd rfl h
    simp [splitRunGo, hacc]
  | cons c cs ih =>
    intro acc h _
    have hc : pySpace c = false := h c (by simp)
    simp only [splitRunGo, hc, Bool.false_eq_true, if_false]
    rw [ih (c :: acc) (fun x hx => h x (by simp [hx])) (Or.inl (by simp))]
    simp

theorem fuzzy_score_eq_amended (needle hay : String) :
    Tui.fuzzy_score needle hay = Tui.amendedScore needle hay := by
  by_cases hq : needle = ""
  · simp [Tui.fuzzy_score, Tui.amendedScore, hq]
  · simp only [Tui.fuzzy_score, Tui.amendedScore, if_neg hq]
    rw [fuzzyLoop_eq_matchIdxs]
    cases hm : Tui.matchIdxs (pyLower needle).data (pyLower hay).data (-1) with
    | none => rfl
    | some ps =>
      have hinc := matchIdxs_incFrom _ _ _ _ (by norm_num) hm
      simp only [Option.map_some']
      rw [charSum_neg_one ps hinc]
      congr 1
      ring

/-- C2 counterexample: for the single-character query "a" on haystack "a"
the matcher scores 10 (the matched character gets 1, the contiguity reward
against the virtual previous index -1, and the start reward, plus the
substring bonus 4 + 1), while the documented sum of the claim gives 8 (no
contiguity reward because no previous matched character exists), so the
claim as stated is false at this input. -/
theorem fuzzy_doc_sum_counterexample :
    Tui.fuzzy_match_score "a" "a" = some 10 ∧
      Tui.claimedScore "a" "a" = some 8 ∧
      Tui.fuzzy_match_score "a" "a" ≠ Tui.claimedScore "a" "a" := by
  decide

/-- C2 amended: for every non-empty single-word (whitespace-free) query,
the score of the fuzzy matcher on any haystack equals the documented sum
amended so that a first matched character at haystack position 0 also
earns the contiguity reward, i.e. +4 in total at position 0 rather than
+2; in particular both sides are absent exactly when the query is not a
case-insensitive subsequence of the haystack. -/
theorem fuzzy_single_word_score (query hay : String) (hq : query ≠ "")
    (hw : ∀ c ∈ (pyLower query).data, pySpace c = false) :
    Tui.fuzzy_match_score query hay = Tui.amendedScore (pyLower query) hay := by
  have hdata : (pyLower query).data ≠ [] := by
    intro hnil
    apply hq
    cases query with
    | mk l =>
      have h0 : l.map Char.toLower = [] := hnil
      have h1 : l = [] := by simpa using h0
      subst h1
      rfl
  have hsplit : pySplit (pyLower query) = [(pyLower query).data] := by
    unfold pySplit
    have h := splitRun_no_space (pyLower query).data [] hw (Or.inr hdata)
    simpa using h
  unfold Tui.fuzzy_match_score
  rw [if_neg hq, hsplit]
  simp only [List.map_cons, List.map_nil]
  rw [show (⟨(pyLower query).data⟩ : String) = pyLower query from rfl]
  unfold Tui.fuzzyParts
  rw [fuzzy_score_eq_amended]
  cases ha : Tui.amendedScore (pyLower query) hay with
  | none => rfl
  | some s => simp [Tui.fuzzyParts]

/-- Witness for C2 at the query "ab" on haystack "cab". -/
theorem fuzzy_single_word_score_witness :
    Tui.fuzzy_match_score "ab" "cab" = Tui.amendedScore (pyLower "ab") "cab" :=
  fuzzy_single_word_score "ab" "cab" (by decide) (by decide)

theorem score_match_initials_nonneg (tok : String) (c : EditList.EContact)
    (h1 : _norm tok ≠ "") (h2 : (_norm tok).length ≤ 3)
    (h3 : _norm tok = c.inits) :
    0 ≤ (EditList.score_match tok c).1 := by
  unfold EditList.score_match
  dsimp only
  split_ifs <;> simp_all

theorem bestOf_ge_init (tok : String) :
    ∀ (people : List EditList.EContact)
      (acc : Option EditList.EContact × (Int × Nat)),
      acc.2.1 ≤
        (people.foldl
          (fun acc c =>
            let sc := EditList.score_match tok c
            if sc.1 > acc.2.1 ∨ (sc.1 = acc.2.1 ∧ sc.2 > acc.2.2) then (some c, sc)
            else acc)
          acc).2.1 := by
  intro people
  induction people with
  | nil => intro acc; simp
  | cons a as ih =>
    intro acc
    rw [List.foldl_cons]
    refine le_trans ?_ (ih _)
    dsimp only
    split_ifs with hcond
    · dsimp only
      rcases hcond with h | ⟨h, -⟩ <;> omega
    · exact le_refl _

theorem bestOf_ge_mem (tok : String) :
    ∀ (people : List EditList.EContact)
      (acc : Option EditList.EContact × (Int × Nat))
      (c : EditList.EContact), c ∈ people →
      (EditList.score_match tok c).1 ≤
        (people.foldl
          (fun acc c =>
            let sc := EditList.score_match tok c
            if sc.1 > acc.2.1 ∨ (sc.1 = acc.2.1 ∧ sc.2 > acc.2.2) then (some c, sc)
            else acc)
          acc).2.1 := by
  intro people
  induction people with
  | nil => intro acc c hc; simp at hc
  | cons a as ih =>
    intro acc c hc
    rw [List.foldl_cons]
    rcases List.mem_cons.mp hc with rfl | hmem
    · refine le_trans ?_ (bestOf_ge_init tok as _)
      dsimp only
      split_ifs with hcond
      · dsimp only
        exact le_refl _
      · rw [not_or] at hcond
        omega
    · exact ih _ c hmem

theorem bestOf_nonneg_of_mem (tok : String) (people : List EditList.EContact)
    (c : EditList.EContact) (hc : c ∈ people)
    (h : 0 ≤ (EditList.score_match tok c).1) :
    0 ≤ (EditList.bestOf tok people).2.1 := by
  unfold EditList.bestOf
  exact le_trans h (bestOf_ge_mem tok people _ c hc)

theorem resolveGo_not_missing (people : List EditList.EContact) (tok : String)
    (h : 0 ≤ (EditList.bestOf tok people).2.1) :
    ∀ (tokens seen : List String),
      tok ∉ (EditList.resolveGo people tokens seen).2 := by
  intro tokens
  induction tokens with
  | nil => intro seen; simp [EditList.resolveGo]
  | cons t rest ih =>
    intro seen
    simp only [EditList.resolveGo]
    split_ifs with hneg
    · dsimp only
      intro hmem
      rcases List.mem_cons.mp hmem with rfl | hmem2
      · omega
      · exact ih seen hmem2
    · cases hb : (EditList.bestOf t people).1 with
      | none =>
        dsimp only
        exact ih seen
      | some best =>
        dsimp only
        split_ifs with hseen
        · exact ih seen
        · dsimp only
          exact ih (best.number :: seen)

/-- C1 amended: the initials tier lives in the score-based resolver of the
roster editor (engine/edit_list.py), not in the resolver of
engine/core.py: a token whose non-empty normalized form has length at most
3 and equals the computed initials of some contact in the list is never
reported missing by the editor resolver (whatever other tiers also fire,
its best score is non-negative, so the token resolves to a contact). -/
theorem initials_resolved_in_editor (tokens : List String)
    (people : List EditList.EContact) (tok : String) (c : EditList.EContact)
    (_htok : tok ∈ tokens) (hmem : c ∈ people) (h1 : _norm tok ≠ "")
    (h2 : (_norm tok).length ≤ 3) (h3 : _norm tok = c.inits) :
    tok ∉ (EditList.resolve_tokens tokens people).2 :=
  resolveGo_not_missing people tok
    (bestOf_nonneg_of_mem tok people c hmem
      (score_match_initials_nonneg tok c h1 h2 h3))
    tokens []

/-- Witness for C1: the token "jl" is resolved (not missing) by the editor
resolver against the single contact "Jordan Lee", whose initials are "jl". -/
theorem initials_resolved_in_editor_witness :
    "jl" ∉ (EditList.resolve_tokens ["jl"]
      [EditList.loadRow "Jordan Lee" "+1 555 0100" ""]).2 :=
  initials_resolved_in_editor ["jl"]
    [EditList.loadRow "Jordan Lee" "+1 555 0100" ""] "jl"
    (EditList.loadRow "Jordan Lee" "+1 555 0100" "")
    (by decide) (by decide) (by decide) (by decide) (by decide)

/-- C1 counterexample: `resolve_tokens` of engine/core.py — the resolver
behind `resolve(tokens, contacts)` in the send flow — has no initials
tier: against the single contact "Jordan Lee" (computed initials "jl",
matching no higher tier) the token "jl" is appended to `missing` instead
of resolving, so the claim as stated is false at this input. -/
theorem initials_core_counterexample :
    Engine.resolve_tokens ["jl"] [Engine.loadRow "Jordan Lee" "+1 555 0100" ""] =
      ([], ["jl"]) := by
  decide

theorem dedupGo_not_seen (l : List Engine.Contact) :
    ∀ (seen : List String) (x : Engine.Contact),
      x ∈ Engine.dedupGo l seen → x.number ∉ seen := by
  induction l with
  | nil => intro seen x hx; simp [Engine.dedupGo] at hx
  | cons c rest ih =>
    intro seen x hx
    simp only [Engine.dedupGo] at hx
    split_ifs at hx with hc
    · exact ih seen x hx
    · rcases List.mem_cons.mp hx with rfl | hx2
      · exact hc
      · intro hmem
        exact ih _ x hx2 (List.mem_cons_of_mem _ hmem)

theorem dedupGo_pairwise (l : List Engine.Contact) :
    ∀ seen : List String,
      (Engine.dedupGo l seen).Pairwise fun a b => a.number ≠ b.number := by
  induction l with
  | nil => intro seen; simp [Engine.dedupGo]
  | cons c rest ih =>
    intro seen
    simp only [Engine.dedupGo]
    split_ifs with hc
    · exact ih seen
    · refine List.Pairwise.cons ?_ (ih _)
      intro b hb
      have hns := dedupGo_not_seen rest _ b hb
      simp only [List.mem_cons, not_or] at hns
      exact fun he => hns.1 he.symm

theorem dedupGo_sublist (l : List Engine.Contact) :
    ∀ seen : List String, (Engine.dedupGo l seen).Sublist l := by
  induction l with
  | nil => intro seen; simp [Engine.dedupGo]
  | cons c rest ih =>
    intro seen
    simp only [Engine.dedupGo]
    split_ifs with hc
    · exact (ih seen).cons c
    · exact (ih _).cons₂ c

theorem dedupGo_map_number (l : List Engine.Contact) :
    ∀ seen : List String,
      (Engine.dedupGo l seen).map Engine.Contact.number =
        Engine.dedupKeysGo (l.map Engine.Contact.number) seen := by
  induction l with
  | nil => intro seen; simp [Engine.dedupGo, Engine.dedupKeysGo]
  | cons c rest ih =>
    intro seen
    simp only [List.map_cons, Engine.dedupGo, Engine.dedupKeysGo]
    split_ifs with hc
    · exact ih seen
    · simp only [List.map_cons, ih]

theorem resolveRaw_not_missing (contacts : List Engine.Contact) (tok : String)
    (h : (Engine.resolveOne contacts tok).isSome = true) :
    ∀ tokens : List String, tok ∉ (Engine.resolveRaw tokens contacts).2 := by
  intro tokens
  induction tokens with
  | nil => simp [Engine.resolveRaw]
  | cons t rest ih =>
    simp only [Engine.resolveRaw]
    cases ht : Engine.resolveOne contacts t with
    | some c =>
      dsimp only
      exact ih
    | none =>
      dsimp only
      intro hmem
      rcases List.mem_cons.mp hmem with rfl | hm2
      · rw [ht] at h
        simp at h
      · exact ih hm2

/-- C5: the resolved list of `resolve_tokens` never holds two entries with
the same number; it is a subsequence of the pre-deduplication selection
(the whole contact list in the "all" case, otherwise the per-token chosen
contacts in input order), its numbers are the first occurrences of the
selection numbers in first-seen order, and a token that resolves to some
contact is never reported missing, even when its number was already chosen
by an earlier token. -/
theorem resolve_dedup_invariant (tokens : List String)
    (contacts : List Engine.Contact) :
    ((Engine.resolve_tokens tokens contacts).1.Pairwise
        fun a b => a.number ≠ b.number) ∧
      (Engine.resolve_tokens tokens contacts).1.Sublist
        (Engine.selectionOf tokens contacts) ∧
      (Engine.resolve_tokens tokens contacts).1.map Engine.Contact.number =
        Engine.dedupKeys
          ((Engine.selectionOf tokens contacts).map Engine.Contact.number) ∧
      ∀ tok : String, (Engine.resolveOne contacts tok).isSome = true →
        tok ∉ (Engine.resolve_tokens tokens contacts).2 := by
  by_cases hall : (tokens.any fun t => pyLower t == "all") = true
  · simp only [Engine.resolve_tokens, Engine.selectionOf, hall, if_true,
      Engine.dedup, Engine.dedupKeys]
    exact ⟨dedupGo_pairwise contacts [], dedupGo_sublist contacts [],
      dedupGo_map_number contacts [], by simp⟩
  · simp only [Engine.resolve_tokens, Engine.selectionOf, hall,
      Bool.false_eq_true, if_false, Engine.dedup, Engine.dedupKeys]
    refine ⟨dedupGo_pairwise _ _, dedupGo_sublist _ _, dedupGo_map_number _ _, ?_⟩
    intro tok hsome
    exact resolveRaw_not_missing contacts tok hsome tokens

/-- Witness for C5: the duplicate token "bob" resolves both times to the
same contact and is absorbed, not reported missing. -/
theorem resolve_dedup_invariant_witness :
    "bob" ∉ (Engine.resolve_tokens ["bob", "bob"]
      [Engine.loadRow "Bob Ray" "+1 555 0100" ""]).2 :=
  (resolve_dedup_invariant ["bob", "bob"]
    [Engine.loadRow "Bob Ray" "+1 555 0100" ""]).2.2.2 "bob" (by decide)

/-- C9: the save operation emits exactly a write of the header plus the
contact rows to the temporary `.tmp` path followed by a rename onto the
target, and the written row sequence is the input sequence re-sorted into
ascending order of lowercased name (a stable mergesort, like Python
`sorted`): a permutation of the input rows that is pairwise sorted by the
case-insensitive name key. -/
theorem save_sorted_atomic (path : String) (contacts : List Engine.Contact) :
    ∃ sorted : List Engine.Contact,
      Engine.write_contacts path contacts =
        [Engine.FsOp.write (path ++ ".tmp")
            (["name", "number", "alias"] :: sorted.map Engine.contactRow),
          Engine.FsOp.rename (path ++ ".tmp") path] ∧
        sorted.Perm contacts ∧
        sorted.Pairwise fun a b => pyLower a.name ≤ pyLower b.name := by
  have htrans : ∀ a b c : Engine.Contact,
      Engine.nameLe a b → Engine.nameLe b c → Engine.nameLe a c := by
    intro a b c hab hbc
    simp only [Engine.nameLe, decide_eq_true_eq] at *
    exact le_trans hab hbc
  have htotal : ∀ a b : Engine.Contact,
      Engine.nameLe a b || Engine.nameLe b a := by
    intro a b
    simp only [Engine.nameLe, Bool.or_eq_true, decide_eq_true_eq]
    exact le_total _ _
  refine ⟨contacts.mergeSort Engine.nameLe, rfl,
    List.mergeSort_perm contacts _, ?_⟩
  refine (List.sorted_mergeSort htrans htotal contacts).imp ?_
  intro a b h
  simpa [Engine.nameLe] using h

theorem pyGet_mem {α : Type} (l : List α) (i : Int) (h0 : 0 ≤ i)
    (h1 : i < (l.length : Int)) : ∃ e, pyGet l i = some e ∧ e ∈ l := by
  unfold pyGet
  rw [if_pos h0, if_pos h1]
  have hlt : i.toNat < l.length := by omega
  exact ⟨l.get ⟨i.toNat, hlt⟩, List.get?_eq_get hlt, List.get_mem _ _ _⟩

theorem clampView_fst_bounds (len : Nat) (maxRows idx offset : Int)
    (h0 : 0 ≤ idx) (hlen : 0 < len) :
    0 ≤ (Tui.clampView len maxRows idx offset).1 ∧
      (Tui.clampView len maxRows idx offset).1 < (len : Int) := by
  simp only [Tui.clampView]
  split_ifs <;> omega

/-- C3 amended: on Enter with an empty selected set, the multi-select
contact browser shows the "select at least one" notice and stays in its
state with filter and selection intact; the plain list picker in
multi-select mode does not — it returns the single highlighted entry as
the result (and ignores the key when the filtered list is empty). -/
theorem multiselect_empty_enter :
    (∀ (cs : List Engine.Contact) (rows cols : Int) (s : Tui.PickState)
        (ch : Int), (ch = 10 ∨ ch = 13) → s.selected = [] →
        ∃ i o, Tui.browserStep true cs rows cols s ch =
          .notice "No selection" "Select at least one contact to remove."
            ⟨s.query, i, o, []⟩) ∧
    (∀ (entries : List (String × String)) (rows cols : Int) (s : Tui.PickState)
        (ch : Int), (ch = 10 ∨ ch = 13) → s.selected = [] → 0 ≤ s.idx →
        Tui.pickerFiltered s.query entries ≠ [] →
        ∃ e, e ∈ Tui.pickerFiltered s.query entries ∧
          Tui.pickerStep true entries rows cols s ch =
            .done (some (Sum.inl [e]))) := by
  constructor
  · rintro cs rows cols ⟨q, i0, o0, sel⟩ ch (rfl | rfl) hsel <;>
      (dsimp only at hsel; subst hsel; exact ⟨_, _, rfl⟩)
  · rintro entries rows cols ⟨q, i0, o0, sel⟩ ch (rfl | rfl) hsel hidx hne <;>
      (dsimp only at hsel hidx hne
       subst hsel
       have hlen : 0 < (Tui.pickerFiltered q entries).length :=
         List.length_pos.mpr hne
       obtain ⟨hb0, hb1⟩ := clampView_fst_bounds
         (Tui.pickerFiltered q entries).length (min 12 (rows - 4) - 4) i0 o0
         hidx (by exact_mod_cast hlen)
       obtain ⟨e, he, hmem⟩ := pyGet_mem _ _ hb0 (by exact_mod_cast hb1)
       refine ⟨e, hmem, ?_⟩
       unfold Tui.pickerStep
       simp [Tui.KEY_RESIZE, Tui.KEY_UP, Tui.KEY_DOWN, Tui.KEY_BACKSPACE, hne, he])

/-- C3 counterexample: the plain list picker in multi-select mode, on
Enter with an empty selected set and one visible entry, returns that
highlighted entry as a singleton result instead of showing a
"select at least one" notice and staying, so the claim is false for the
plain list picker. -/
theorem multiselect_empty_enter_counterexample :
    Tui.pickerStep true [("alpha", "alpha.csv")] 24 80 ⟨"", 0, 0, []⟩ 10 =
      .done (some (Sum.inl [("alpha", "alpha.csv")])) := by
  decide

/-- Witness for C3 at concrete states of both machines. -/
theorem multiselect_empty_enter_witness :
    (∃ i o, Tui.browserStep true [] 24 80 ⟨"", 0, 0, []⟩ 10 =
      .notice "No selection" "Select at least one contact to remove."
        ⟨"", i, o, []⟩) ∧
    (∃ e, e ∈ Tui.pickerFiltered "" [("beta", "b.csv")] ∧
      Tui.pickerStep true [("beta", "b.csv")] 24 80 ⟨"", 0, 0, []⟩ 13 =
        .done (some (Sum.inl [e]))) :=
  ⟨multiselect_empty_enter.1 [] 24 80 ⟨"", 0, 0, []⟩ 10 (Or.inl rfl) rfl,
   multiselect_empty_enter.2 [("beta", "b.csv")] 24 80 ⟨"", 0, 0, []⟩ 13
     (Or.inr rfl) rfl (by decide) (by decide)⟩

/-- C6 amended: in the plain list picker in single-select mode, Enter
returns exactly the highlighted candidate when the filtered list is
non-empty; when the filtered list is empty the key press is ignored and
the picker stays open with its filter and selection intact, rather than
terminating without a value (only Escape does that). -/
theorem single_select_enter :
    (∀ (entries : List (String × String)) (rows cols : Int) (s : Tui.PickState)
        (ch : Int), (ch = 10 ∨ ch = 13) → 0 ≤ s.idx →
        Tui.pickerFiltered s.query entries ≠ [] →
        ∃ e, pyGet (Tui.pickerFiltered s.query entries)
            (Tui.clampView (Tui.pickerFiltered s.query entries).length
              (min 12 (rows - 4) - 4) s.idx s.offset).1 = some e ∧
          Tui.pickerStep false entries rows cols s ch =
            .done (some (Sum.inr e))) ∧
    (∀ (entries : List (String × String)) (rows cols : Int) (s : Tui.PickState)
        (ch : Int), (ch = 10 ∨ ch = 13) →
        Tui.pickerFiltered s.query entries = [] →
        ∃ i o, Tui.pickerStep false entries rows cols s ch =
          .next ⟨s.query, i, o, s.selected⟩) := by
  constructor
  · rintro entries rows cols ⟨q, i0, o0, sel⟩ ch (rfl | rfl) hidx hne <;>
      (dsimp only at hidx hne ⊢
       have hlen : 0 < (Tui.pickerFiltered q entries).length :=
         List.length_pos.mpr hne
       obtain ⟨hb0, hb1⟩ := clampView_fst_bounds
         (Tui.pickerFiltered q entries).length (min 12 (rows - 4) - 4) i0 o0
         hidx (by exact_mod_cast hlen)
       obtain ⟨e, he, hmem⟩ := pyGet_mem _ _ hb0 (by exact_mod_cast hb1)
       refine ⟨e, he, ?_⟩
       unfold Tui.pickerStep
       simp [Tui.KEY_RESIZE, Tui.KEY_UP, Tui.KEY_DOWN, Tui.KEY_BACKSPACE, hne, he])
  · rintro entries rows cols ⟨q, i0, o0, sel⟩ ch (rfl | rfl) hemp <;>
      (dsimp only at hemp
       refine ⟨(Tui.clampView (Tui.pickerFiltered q entries).length
           (min 12 (rows - 4) - 4) i0 o0).1,
         (Tui.clampView (Tui.pickerFiltered q entries).length
           (min 12 (rows - 4) - 4) i0 o0).2, ?_⟩
       unfold Tui.pickerStep
       simp [Tui.KEY_RESIZE, Tui.KEY_UP, Tui.KEY_DOWN, Tui.KEY_BACKSPACE, hemp])

/-- C6 counterexample: on Enter with an empty filtered list the
single-select picker does not return an absent value — it ignores the key
and keeps the interaction open in the same state. -/
theorem single_select_enter_counterexample :
    Tui.pickerStep false ([] : List (String × String)) 24 80 ⟨"", 0, 0, []⟩ 10 =
        .next ⟨"", 0, 0, []⟩ ∧
      Tui.pickerStep false ([] : List (String × String)) 24 80 ⟨"", 0, 0, []⟩ 10 ≠
        .done none := by
  decide

/-- Witness for C6: Enter returns the highlighted second entry when two
entries are visible, and is ignored on an empty entry list. -/
theorem single_select_enter_witness :
    (∃ e, pyGet (Tui.pickerFiltered "" [("alpha", "alpha.csv"), ("beta", "b.csv")])
        (Tui.clampView
          (Tui.pickerFiltered "" [("alpha", "alpha.csv"), ("beta", "b.csv")]).length
          (min 12 (24 - 4) - 4) 1 0).1 = some e ∧
      Tui.pickerStep false [("alpha", "alpha.csv"), ("beta", "b.csv")] 24 80
          ⟨"", 1, 0, []⟩ 10 =
        .done (some (Sum.inr e))) ∧
    (∃ i o, Tui.pickerStep false ([] : List (String × String)) 24 80
        ⟨"", 2, 3, ["x"]⟩ 13 = .next ⟨"", i, o, ["x"]⟩) :=
  ⟨single_select_enter.1 [("alpha", "alpha.csv"), ("beta", "b.csv")] 24 80
     ⟨"", 1, 0, []⟩ 10 (Or.inl rfl) (by decide) (by decide),
   single_select_enter.2 [] 24 80 ⟨"", 2, 3, ["x"]⟩ 13 (Or.inr rfl) (by decide)⟩
